import Mathlib

/-!
Verification of the green-thread runtime in `src/green.rs`.

The runtime's process-global state (runnable queue `CONTEXTS`, waiting table
`WAITING`, mailbox `MESSAGES`, live id set `ID`, main-context slot `CTX_MAIN`,
unused-stack slot `UNUSED_STACK`) is embedded as the record `Green.GState`.
Each runtime operation (`send`, `recv`, `schedule`, `spawn`, the exit path of
`entry_point`, `rm_unused_stack`, `spawn_from_main`) is translated into a pure
state-passing function.  The assembly context switch (`set_context` /
`switch_context`) is embedded by an interpreter `step` over per-task command
programs: a task suspended at a `set_context` site carries a `Resume` tag
recording where it will continue (and whether `rm_unused_stack` runs there),
and the task at the front of the runnable queue executes its next command.
A ghost `trace` of events records sends, receives, yields, spawns, exits and
stack deallocations for stating temporal properties.
-/

namespace Green

/-- A 64-bit message/identifier is modelled as `Nat` (identifiers are only
ever compared for equality and stored in containers, so the width bound is
irrelevant to every property below). -/
abbrev Word := Nat

/-- The body of a task's entry function, as the sequence of runtime calls it
makes.  `spawnc p` spawns a child task whose entry function performs `p`. -/
inductive Com where
  | yield : Com
  | send (key : Word) (msg : Word) : Com
  | recv : Com
  | spawnc (child : List Com) : Com

/-- Where a context continues when `switch_context` restores it:
* `start`: fresh task, begins at `entry_point` (no `rm_unused_stack` there);
* `normal`: suspended at the `set_context` inside `schedule`; on resume it
  runs `rm_unused_stack` and returns to its caller;
* `receiving`: suspended at the `set_context` inside `recv`; on resume it
  runs `rm_unused_stack`, pops its mailbox and returns the message;
* `running`: currently executing (tag already consumed). -/
inductive Resume where
  | start : Resume
  | normal : Resume
  | receiving : Resume
  | running : Resume
deriving DecidableEq, Repr

/-- Model of `Context` from the source: the register snapshot is represented by the
`resume` tag (which encodes exactly where the saved program counter points),
the entry function by the remaining command list `prog`, and the owned stack
by the task identifier (each task owns exactly one stack, so `id` doubles as
the stack's name in the ghost events). -/
structure Ctx where
  id : Word
  prog : List Com
  resume : Resume

/-- Ghost trace events. `freed s` records `rm_unused_stack` deallocating the
stack of the task with identifier `s`. -/
inductive Event where
  | yielded (id : Word) : Event
  | sent (sender key msg : Word) : Event
  | recvd (id : Word) (msg : Option Word) : Event
  | spawned (parent child : Word) : Event
  | exited (id : Word) : Event
  | freed (stk : Word) : Event
deriving DecidableEq, Repr

/-- Model of `MappedList::push_back`: append to the list under `k`, inserting a fresh
singleton list if the key is absent (`HashMap` embedded as an association
list with unique keys; hash order is never observed by the source). -/
def mpush : List (Word × List Word) → Word → Word → List (Word × List Word)
  | [], k, v => [(k, [v])]
  | (k', l) :: rest, k, v =>
      if k' = k then (k', l ++ [v]) :: rest else (k', l) :: mpush rest k v

/-- Model of `MappedList::pop_front`: pop the head of the list under `k`; `none` when
the key is absent or its list is empty (the entry is not removed, matching
`LinkedList::pop_front` on an empty list). -/
def mpop : List (Word × List Word) → Word → Option Word × List (Word × List Word)
  | [], _ => (none, [])
  | (k', l) :: rest, k =>
      if k' = k then
        match l with
        | [] => (none, (k', []) :: rest)
        | v :: tl => (some v, (k', tl) :: rest)
      else
        let (r, rest') := mpop rest k
        (r, (k', l) :: rest')

/-- The queue of pending messages for key `k` (empty when absent). -/
def mget : List (Word × List Word) → Word → List Word
  | [], _ => []
  | (k', l) :: rest, k => if k' = k then l else mget rest k

/-- Model of `HashMap::get` on the waiting table. -/
def wlookup : List (Word × Ctx) → Word → Option Ctx
  | [], _ => none
  | (k', v) :: rest, k => if k' = k then some v else wlookup rest k

/-- Model of `HashMap::remove` on the waiting table: the removed context and the
remaining table. -/
def wremove : List (Word × Ctx) → Word → Option Ctx × List (Word × Ctx)
  | [], _ => (none, [])
  | (k', v) :: rest, k =>
      if k' = k then (some v, rest)
      else
        let (r, rest') := wremove rest k
        (r, (k', v) :: rest')

/-- Model of `HashMap::insert` on the waiting table. -/
def winsert : List (Word × Ctx) → Word → Ctx → List (Word × Ctx)
  | [], k, v => [(k, v)]
  | (k', v') :: rest, k, v =>
      if k' = k then (k', v) :: rest else (k', v') :: winsert rest k v

/-- The process-global runtime state of `green.rs`.  `unusedStack` holds the
identifier of the task whose stack is pending deallocation; `rng` is the
stream of samples produced by `rand::random`; `trace` is ghost; a `panic!`
is embedded by setting `error`. -/
structure GState where
  contexts : List Ctx
  waiting : List (Word × Ctx)
  messages : List (Word × List Word)
  ids : List Word
  ctxMain : Option Unit
  unusedStack : Option Word
  rng : List Word
  trace : List Event
  error : Option String

/-- Model of `rm_unused_stack`: if the slot is populated, deallocate that stack
(ghost event `freed`) and clear the slot. -/
def rm_unused_stack (s : GState) : GState :=
  match s.unusedStack with
  | none => s
  | some stk => { s with unusedStack := none, trace := s.trace ++ [Event.freed stk] }

/-- Model of `schedule` (the `yield` operation), up to the `set_context` call: with a
single entry return immediately; with an empty queue the source panics
(`CONTEXTS.pop_front().unwrap()` on `None`); otherwise rotate the front
context to the back, its saved registers pointing back into `schedule`
(`Resume.normal`).  The suspended task's later `rm_unused_stack` is performed
by `step` when the context is resumed. -/
def schedule (s : GState) : GState :=
  match s.contexts with
  | [] => { s with error := some "unwrap on None" }
  | [_] => s
  | c :: c2 :: tl =>
      { s with contexts := (c2 :: tl) ++ [{ c with resume := Resume.normal }] }

/-- The body of `send` before its `schedule()` call: push the message onto
the mailbox for `key`; if a context is waiting on `key`, remove it from the
waiting table and append it to the runnable queue. -/
def sendBody (key msg : Word) (s : GState) : GState :=
  let s1 := { s with messages := mpush s.messages key msg }
  match wremove s1.waiting key with
  | (some w, waiting') => { s1 with waiting := waiting', contexts := s1.contexts ++ [w] }
  | (none, _) => s1

/-- Model of `send`: deliver the message (waking any waiting recipient), then yield. -/
def send (key msg : Word) (s : GState) : GState :=
  schedule (sendBody key msg s)

/-- Outcome of `recv` up to its `set_context` call. -/
inductive RecvOut where
  | ret (mo : Option Word) (s : GState) : RecvOut
  | deadlock : RecvOut
  | blocked (s : GState) : RecvOut

/-- Model of `recv`, up to the `set_context` call: `CONTEXTS.front()?` returns `none`
on an empty queue; a non-empty mailbox for the caller's id is popped and
returned; a sole runnable caller with an empty mailbox panics `"dead lock!"`;
otherwise the caller moves from the runnable queue into the waiting table,
suspended at the `set_context` inside `recv` (`Resume.receiving`). -/
def recvFn (s : GState) : RecvOut :=
  match s.contexts with
  | [] => RecvOut.ret none s
  | c :: rest =>
      match mpop s.messages c.id with
      | (some m, msgs') => RecvOut.ret (some m) { s with messages := msgs' }
      | (none, msgs') =>
          match rest with
          | [] => RecvOut.deadlock
          | _ :: _ =>
              let w' := winsert s.waiting c.id { c with resume := Resume.receiving }
              let s' := { s with messages := msgs', contexts := rest, waiting := w' }
              RecvOut.blocked s'

/-- Model of `get_id`: draw samples from the random stream until one misses the live
id set, insert it and return it (with the updated set and remaining stream);
`none` models exhausting the finite sample stream. -/
def getId : List Word → List Word → Option (Word × List Word × List Word)
  | [], _ => none
  | r :: rest, ids => if r ∈ ids then getId rest ids else some (r, r :: ids, rest)

/-- The context updates shared by every path that consumes a `Resume` tag:
the task is now running. -/
def resumeCtx (c : Ctx) : Ctx := { c with resume := Resume.running }

/-- The state effects of restoring a saved context, from the source lines
just after each `set_context`: a resume inside `schedule` runs
`rm_unused_stack`; a resume inside `recv` runs `rm_unused_stack` and then
pops the caller's mailbox, the popped message being `recv`'s return value
(ghost event `recvd`); a fresh task starting at `entry_point` performs
neither. -/
def resumeState (c : Ctx) (s : GState) : GState :=
  match c.resume with
  | Resume.normal => rm_unused_stack s
  | Resume.receiving =>
      let s1 := rm_unused_stack s
      let r := mpop s1.messages c.id
      { s1 with messages := r.2, trace := s1.trace ++ [Event.recvd c.id r.1] }
  | _ => s

/-- One command of the front task (its `Resume` tag already consumed).  An
empty program is the entry function returning: the tail of `entry_point`
pops the context, releases its identifier, and parks its stack in the
unused-stack slot (overwriting whatever the slot held).  The other commands
are the runtime calls `schedule`, `send`, `recv`, `spawn`. -/
def stepCmd (s : GState) : GState :=
  match s.contexts with
  | [] => s
  | c :: rest =>
      match c.prog with
      | [] =>
          { s with contexts := rest, ids := s.ids.erase c.id
                   unusedStack := some c.id
                   trace := s.trace ++ [Event.exited c.id] }
      | Com.yield :: p =>
          let s' := { s with contexts := { c with prog := p } :: rest
                             trace := s.trace ++ [Event.yielded c.id] }
          schedule s'
      | Com.send key msg :: p =>
          let s' := { s with contexts := { c with prog := p } :: rest
                             trace := s.trace ++ [Event.sent c.id key msg] }
          send key msg s'
      | Com.recv :: p =>
          match recvFn { s with contexts := { c with prog := p } :: rest } with
          | RecvOut.ret mo s' => { s' with trace := s'.trace ++ [Event.recvd c.id mo] }
          | RecvOut.deadlock =>
              { s with error := some "dead lock!"
                       contexts := { c with prog := p } :: rest }
          | RecvOut.blocked s' => s'
      | Com.spawnc child :: p =>
          match getId s.rng s.ids with
          | none => { s with error := some "rng exhausted" }
          | some (id, ids', rng') =>
              let ctxs := ({ c with prog := p } :: rest) ++ [⟨id, child, Resume.start⟩]
              let s' := { s with contexts := ctxs, ids := ids', rng := rng'
                                 trace := s.trace ++ [Event.spawned c.id id] }
              schedule s'

/-- One interpreter step: after a panic nothing runs; with an empty runnable
queue control is back at the host; otherwise the front context is restored
(consuming its `Resume` tag) and executes its next command. -/
def step (s : GState) : GState :=
  if s.error.isSome then s
  else
    match s.contexts with
    | [] => s
    | c :: rest =>
        stepCmd { resumeState c s with contexts := resumeCtx c :: rest }

/-- Run `n` interpreter steps. -/
def run : Nat → GState → GState
  | 0, s => s
  | n + 1, s => run n (step s)

/-- The teardown at the end of `spawn_from_main`, after control returned to
the main context: `rm_unused_stack`, clear the main-context slot, and clear
every global table. -/
def teardown (s : GState) : GState :=
  let s1 := rm_unused_stack s
  { s1 with ctxMain := none, contexts := [], messages := [], waiting := [], ids := [] }

/-- The tail of `spawn_from_main` after control has returned to the main
context (or the run was cut off): propagate a panic, and otherwise require
the runnable queue to be empty — the only way the source switches back to
the main context — before tearing down. -/
def bootFinish (s3 : GState) : Except String GState :=
  match s3.error with
  | some e => Except.error e
  | none =>
      if s3.contexts.isEmpty then Except.ok (teardown s3) else
        Except.error "out of fuel"

/-- Model of `spawn_from_main` (bootstrap): panic if the main context slot is already
populated; otherwise capture the main context, initialize empty mailbox,
waiting table and id set, spawn the first task (`get_id` drawing from the
empty id set), and run until the runnable queue is empty (the last task's
`entry_point` switched back to the main context), then tear down.  `fuel`
bounds the interpreter; `rng` is the random stream used for identifier
generation. -/
def spawn_from_main (prog : List Com) (rng : List Word) (fuel : Nat)
    (s : GState) : Except String GState :=
  if s.ctxMain.isSome then Except.error "spawn_from_main is called twice"
  else
    match getId rng [] with
    | none => Except.error "rng exhausted"
    | some (id, ids', rng') =>
        bootFinish (run fuel
          { s with ctxMain := some (), messages := [], waiting := [], ids := ids'
                   rng := rng'
                   contexts := s.contexts ++ [⟨id, prog, Resume.start⟩] })

/-- The empty pre-bootstrap state (all statics at their initial values). -/
def initState : GState :=
  ⟨[], [], [], [], none, none, [], [], none⟩

/-- Test for `Except.ok` bootstrap results. -/
def isOkE : Except String GState → Bool
  | Except.ok _ => true
  | Except.error _ => false

/-- Trace of a bootstrap result (empty for a panic). -/
def traceOf : Except String GState → List Event
  | Except.ok s => s.trace
  | Except.error _ => []

/-! ### Mailbox container lemmas -/

lemma mget_mpush_self (m : List (Word × List Word)) (k v : Word) :
    mget (mpush m k v) k = mget m k ++ [v] := by
  induction m with
  | nil => simp [mpush, mget]
  | cons h t ih =>
      obtain ⟨k', l⟩ := h
      by_cases hk : k' = k <;> simp [mpush, mget, hk, ih]

lemma mget_mpush_ne (m : List (Word × List Word)) (k k' v : Word) (h : k' ≠ k) :
    mget (mpush m k v) k' = mget m k' := by
  induction m with
  | nil => simp [mpush, mget, Ne.symm h]
  | cons hd t ih =>
      obtain ⟨k'', l⟩ := hd
      by_cases hk : k'' = k
      · subst hk
        simp [mpush, mget, Ne.symm h]
      · by_cases hk2 : k'' = k'
        · subst hk2
          simp [mpush, mget, hk]
        · simp [mpush, mget, hk, hk2, ih]

lemma mpop_eq_nil (m : List (Word × List Word)) (k : Word) (h : mget m k = []) :
    mpop m k = (none, m) := by
  induction m with
  | nil => simp [mpop]
  | cons hd t ih =>
      obtain ⟨k', l⟩ := hd
      by_cases hk : k' = k
      · subst hk
        simp [mget] at h
        simp [mpop, h]
      · simp [mget, hk] at h
        simp [mpop, hk, ih h]

lemma mpop_eq_cons (m : List (Word × List Word)) (k v : Word) (tl : List Word)
    (h : mget m k = v :: tl) :
    (mpop m k).1 = some v ∧ mget (mpop m k).2 k = tl ∧
      ∀ k', k' ≠ k → mget (mpop m k).2 k' = mget m k' := by
  induction m with
  | nil => simp [mget] at h
  | cons hd t ih =>
      obtain ⟨k'', l⟩ := hd
      by_cases hk : k'' = k
      · subst hk
        simp [mget] at h
        subst h
        refine ⟨by simp [mpop], by simp [mpop, mget], ?_⟩
        intro k' hne
        simp [mpop, mget, Ne.symm hne]
      · simp [mget, hk] at h
        obtain ⟨h1, h2, h3⟩ := ih h
        refine ⟨?_, ?_, ?_⟩
        · simpa [mpop, hk] using h1
        · simpa [mpop, mget, hk] using h2
        · intro k' hne
          by_cases hk2 : k'' = k'
          · subst hk2
            simp [mpop, mget, hne]
          · simp [mpop, mget, hk, hk2, h3 k' hne]

lemma mpop_fst_none (m : List (Word × List Word)) (k : Word)
    (h : (mpop m k).1 = none) : mget m k = [] := by
  cases hm : mget m k with
  | nil => rfl
  | cons v tl => rw [(mpop_eq_cons m k v tl hm).1] at h; cases h

/-! ### Waiting-table container lemmas -/

lemma wremove_fst (m : List (Word × Ctx)) (k : Word) :
    (wremove m k).1 = wlookup m k := by
  induction m with
  | nil => simp [wremove, wlookup]
  | cons hd t ih =>
      obtain ⟨k', v⟩ := hd
      by_cases hk : k' = k <;> simp [wremove, wlookup, hk, ih]

lemma wremove_perm (m : List (Word × Ctx)) (k : Word) (w : Ctx)
    (h : (wremove m k).1 = some w) : m.Perm ((k, w) :: (wremove m k).2) := by
  induction m with
  | nil => simp [wremove] at h
  | cons hd t ih =>
      obtain ⟨k', v⟩ := hd
      by_cases hk : k' = k
      · subst hk
        simp [wremove] at h ⊢
        exact h ▸ List.Perm.refl _
      · simp [wremove, hk] at h ⊢
        exact (List.Perm.cons _ (ih h)).trans (List.Perm.swap _ _ _)

lemma winsert_of_not_mem (m : List (Word × Ctx)) (k : Word) (v : Ctx)
    (h : k ∉ m.map Prod.fst) : winsert m k v = m ++ [(k, v)] := by
  induction m with
  | nil => simp [winsert]
  | cons hd t ih =>
      obtain ⟨k', v'⟩ := hd
      simp only [List.map_cons, List.mem_cons] at h
      push_neg at h
      obtain ⟨h1, h2⟩ := h
      simp [winsert, Ne.symm h1, ih h2]

/-! ### Identifier allocator lemma -/

lemma getId_spec (rng ids : List Word) (i : Word) (ids' rng' : List Word)
    (h : getId rng ids = some (i, ids', rng')) : i ∉ ids ∧ ids' = i :: ids := by
  induction rng with
  | nil => simp [getId] at h
  | cons r rest ih =>
      by_cases hr : r ∈ ids
      · exact ih (by simpa [getId, hr] using h)
      · simp [getId, hr] at h
        obtain ⟨h1, h2, _⟩ := h
        subst h1
        exact ⟨hr, h2.symm⟩

/-! ### Trace selectors: messages sent to / received by an identifier -/

/-- Message payload of a `sent` event addressed to `k`. -/
def sentSel (k : Word) : Event → Option Word
  | Event.sent _ k' m => if k' = k then some m else none
  | _ => none

/-- Message payload of a successful `recvd` event of task `k`. -/
def recvSel (k : Word) : Event → Option Word
  | Event.recvd k' mo => if k' = k then mo else none
  | _ => none

/-- The messages sent to identifier `k`, in trace order. -/
def sentTo (k : Word) (tr : List Event) : List Word := tr.filterMap (sentSel k)

/-- The messages received by the task with identifier `k`, in trace order. -/
def recvdBy (k : Word) (tr : List Event) : List Word := tr.filterMap (recvSel k)

@[simp] lemma sentTo_nil (k : Word) : sentTo k [] = [] := rfl

@[simp] lemma recvdBy_nil (k : Word) : recvdBy k [] = [] := rfl

@[simp] lemma sentTo_append (k : Word) (t u : List Event) :
    sentTo k (t ++ u) = sentTo k t ++ sentTo k u := by
  simp [sentTo, List.filterMap_append]

@[simp] lemma recvdBy_append (k : Word) (t u : List Event) :
    recvdBy k (t ++ u) = recvdBy k t ++ recvdBy k u := by
  simp [recvdBy, List.filterMap_append]

@[simp] lemma sentTo_yielded (k i : Word) : sentTo k [Event.yielded i] = [] := rfl

@[simp] lemma sentTo_spawned (k i j : Word) : sentTo k [Event.spawned i j] = [] := rfl

@[simp] lemma sentTo_exited (k i : Word) : sentTo k [Event.exited i] = [] := rfl

@[simp] lemma sentTo_freed (k i : Word) : sentTo k [Event.freed i] = [] := rfl

@[simp] lemma sentTo_recvd (k i : Word) (mo : Option Word) :
    sentTo k [Event.recvd i mo] = [] := rfl

@[simp] lemma sentTo_sent (k a k' m : Word) :
    sentTo k [Event.sent a k' m] = if k' = k then [m] else [] := by
  by_cases h : k' = k <;> simp [sentTo, List.filterMap, sentSel, h]

@[simp] lemma recvdBy_yielded (k i : Word) : recvdBy k [Event.yielded i] = [] := rfl

@[simp] lemma recvdBy_spawned (k i j : Word) : recvdBy k [Event.spawned i j] = [] := rfl

@[simp] lemma recvdBy_exited (k i : Word) : recvdBy k [Event.exited i] = [] := rfl

@[simp] lemma recvdBy_freed (k i : Word) : recvdBy k [Event.freed i] = [] := rfl

@[simp] lemma recvdBy_sent (k a k' m : Word) : recvdBy k [Event.sent a k' m] = [] := rfl

@[simp] lemma recvdBy_recvd_none (k i : Word) : recvdBy k [Event.recvd i none] = [] := by
  by_cases h : i = k <;> simp [recvdBy, List.filterMap, recvSel, h]

@[simp] lemma recvdBy_recvd_some (k i m : Word) :
    recvdBy k [Event.recvd i (some m)] = if i = k then [m] else [] := by
  by_cases h : i = k <;> simp [recvdBy, List.filterMap, recvSel, h]

/-! ### Field-stability lemmas for the runtime operations -/

lemma schedule_messages (s : GState) : (schedule s).messages = s.messages := by
  unfold schedule; split <;> rfl

lemma schedule_trace (s : GState) : (schedule s).trace = s.trace := by
  unfold schedule; split <;> rfl

lemma sendBody_messages (key msg : Word) (s : GState) :
    (sendBody key msg s).messages = mpush s.messages key msg := by
  unfold sendBody
  rcases h : wremove s.waiting key with ⟨_ | w, w'⟩ <;> simp [h]

lemma sendBody_trace (key msg : Word) (s : GState) :
    (sendBody key msg s).trace = s.trace := by
  unfold sendBody
  rcases h : wremove s.waiting key with ⟨_ | w, w'⟩ <;> simp [h]

/-! ### FIFO mailbox invariant (claim C1)

The messages a task has received, followed by the messages still queued in
its mailbox, are exactly the messages sent to its identifier, in order. -/

/-- Per-identifier FIFO invariant relating the ghost trace and the mailbox. -/
def MailInv (k : Word) (s : GState) : Prop :=
  sentTo k s.trace = recvdBy k s.trace ++ mget s.messages k

lemma MailInv_of_eq {k : Word} {s s' : GState} (h1 : s'.trace = s.trace)
    (h2 : s'.messages = s.messages) (h : MailInv k s) : MailInv k s' := by
  unfold MailInv at *
  rw [h1, h2]
  exact h

lemma MailInv_rm {k : Word} {s : GState} (h : MailInv k s) :
    MailInv k (rm_unused_stack s) := by
  cases hu : s.unusedStack with
  | none => simpa [rm_unused_stack, hu] using h
  | some stk =>
      unfold MailInv at *
      simp [rm_unused_stack, hu, h]

lemma MailInv_resumeState {k : Word} (c : Ctx) {s : GState} (h : MailInv k s) :
    MailInv k (resumeState c s) := by
  cases hr : c.resume with
  | start => simpa [resumeState, hr] using h
  | running => simpa [resumeState, hr] using h
  | normal => simpa [resumeState, hr] using MailInv_rm h
  | receiving =>
      have h1 : MailInv k (rm_unused_stack s) := MailInv_rm h
      cases hm : mget (rm_unused_stack s).messages c.id with
      | nil =>
          have hp := mpop_eq_nil _ _ hm
          unfold MailInv at h1 ⊢
          simp [resumeState, hr, hp, h1]
      | cons v tl =>
          obtain ⟨hp1, hp2, hp3⟩ := mpop_eq_cons _ _ _ _ hm
          unfold MailInv at h1 ⊢
          by_cases hk : c.id = k
          · subst hk
            simp [resumeState, hr, hp1, hp2, hm] at h1 ⊢
            simp [h1]
          · simp [resumeState, hr, hp1, hk, hp3 k (Ne.symm hk), h1]

lemma MailInv_schedule {k : Word} {s : GState} (h : MailInv k s) :
    MailInv k (schedule s) :=
  MailInv_of_eq (schedule_trace s) (schedule_messages s) h

lemma MailInv_stepCmd {k : Word} {s : GState} (h : MailInv k s) :
    MailInv k (stepCmd s) := by
  rcases hc : s.contexts with _ | ⟨c, rest⟩
  · simpa [stepCmd, hc] using h
  · rcases hp : c.prog with _ | ⟨cmd, p⟩
    · unfold MailInv at h ⊢
      simp [stepCmd, hc, hp, h]
    · cases cmd with
      | yield =>
          have hs : stepCmd s = schedule
              { s with contexts := { c with prog := p } :: rest
                       trace := s.trace ++ [Event.yielded c.id] } := by
            simp [stepCmd, hc, hp]
          rw [hs]
          refine MailInv_schedule ?_
          unfold MailInv at h ⊢
          simp [h]
      | send key msg =>
          have hs : stepCmd s = send key msg
              { s with contexts := { c with prog := p } :: rest
                       trace := s.trace ++ [Event.sent c.id key msg] } := by
            simp [stepCmd, hc, hp]
          rw [hs]
          refine MailInv_schedule ?_
          unfold MailInv at h ⊢
          rw [sendBody_trace, sendBody_messages]
          by_cases hk : key = k
          · subst hk
            simp [h, mget_mpush_self]
          · simp [h, hk, mget_mpush_ne _ _ _ _ (Ne.symm hk)]
      | recv =>
          cases hm : mget s.messages c.id with
          | nil =>
              have hp2 := mpop_eq_nil _ _ hm
              rcases rest with _ | ⟨r, rs⟩
              · unfold MailInv at h ⊢
                simp [stepCmd, hc, hp, recvFn, hp2]
                exact h
              · unfold MailInv at h ⊢
                simp [stepCmd, hc, hp, recvFn, hp2]
                exact h
          | cons v tl =>
              obtain ⟨hp1, hp2, hp3⟩ := mpop_eq_cons _ _ _ _ hm
              rcases hq : mpop s.messages c.id with ⟨mo, msgs'⟩
              rw [hq] at hp1 hp2 hp3
              subst hp1
              unfold MailInv at h ⊢
              by_cases hk : c.id = k
              · subst hk
                simp [stepCmd, hc, hp, recvFn, hq, hp2, hm] at h ⊢
                simp [h]
              · simp [stepCmd, hc, hp, recvFn, hq, hk, hp3 k (Ne.symm hk), h]
      | spawnc child =>
          rcases hg : getId s.rng s.ids with _ | ⟨id, ids', rng'⟩
          · unfold MailInv at h ⊢
            simp [stepCmd, hc, hp, hg, h]
          · have hs : stepCmd s = schedule
                { s with contexts := ({ c with prog := p } :: rest) ++
                           [⟨id, child, Resume.start⟩]
                         ids := ids', rng := rng'
                         trace := s.trace ++ [Event.spawned c.id id] } := by
              simp [stepCmd, hc, hp, hg]
            rw [hs]
            refine MailInv_schedule ?_
            unfold MailInv at h ⊢
            simp [h]

lemma MailInv_step {k : Word} {s : GState} (h : MailInv k s) :
    MailInv k (step s) := by
  by_cases he : s.error.isSome
  · simpa [step, he] using h
  · rcases hc : s.contexts with _ | ⟨c, rest⟩
    · simpa [step, he, hc] using h
    · have hs : step s = stepCmd { resumeState c s with contexts := resumeCtx c :: rest } := by
        simp [step, he, hc]
      rw [hs]
      exact MailInv_stepCmd (MailInv_of_eq rfl rfl (MailInv_resumeState c h))

lemma MailInv_run {k : Word} (n : Nat) {s : GState} (h : MailInv k s) :
    MailInv k (run n s) := by
  induction n generalizing s with
  | zero => exact h
  | succ n ih => exact ih (MailInv_step h)

/-! ### Scheduler accounting invariant (claim C7) -/

/-- The identifiers of every context owned by the runnable queue or the
waiting table, in that order. -/
def allIds (s : GState) : List Word :=
  s.contexts.map Ctx.id ++ s.waiting.map Prod.fst

/-- Well-formedness of the scheduler state: no identifier is owned twice,
the live id set is exactly the owned identifiers, and every waiting-table
entry is keyed by its context's identifier. -/
def WF (s : GState) : Prop :=
  (allIds s).Nodup ∧ s.ids.Perm (allIds s) ∧ ∀ p ∈ s.waiting, p.1 = p.2.id

/-- The accounting invariant of claim C7. -/
def SchedInv (s : GState) : Prop :=
  s.ids.length = s.contexts.length + s.waiting.length ∧
    ∀ p ∈ s.waiting, p.1 ∈ s.ids ∧ p.1 ∉ s.contexts.map Ctx.id

lemma SchedInv_of_WF {s : GState} (h : WF s) : SchedInv s := by
  obtain ⟨hn, hperm, _⟩ := h
  constructor
  · rw [hperm.length_eq]
    simp [allIds]
  · intro p hp
    have hmem : p.1 ∈ s.waiting.map Prod.fst := List.mem_map_of_mem Prod.fst hp
    refine ⟨hperm.mem_iff.mpr (by simp [allIds, hmem]), ?_⟩
    intro hin
    exact (List.nodup_append.mp hn).2.2 hin hmem

lemma snoc_append_perm {α : Type} (X Y : List α) (a : α) :
    ((X ++ [a]) ++ Y).Perm (a :: (X ++ Y)) := by
  rw [List.append_assoc, List.singleton_append]
  exact List.perm_middle

/-- Rotating, waking or blocking reshuffles `allIds`; this transfers `WF`
along any permutation that keeps `ids` and the waiting entries. -/
lemma WF_of_perm {s s' : GState} (h : WF s) (hperm : (allIds s').Perm (allIds s))
    (hids : s'.ids = s.ids) (hw : ∀ p ∈ s'.waiting, p ∈ s.waiting) : WF s' := by
  obtain ⟨hn, hp, hk⟩ := h
  exact ⟨hperm.symm.nodup hn, hids ▸ (hp.trans hperm.symm), fun p hpw => hk p (hw p hpw)⟩

lemma rm_contexts (s : GState) : (rm_unused_stack s).contexts = s.contexts := by
  unfold rm_unused_stack; split <;> rfl

lemma rm_waiting (s : GState) : (rm_unused_stack s).waiting = s.waiting := by
  unfold rm_unused_stack; split <;> rfl

lemma rm_ids (s : GState) : (rm_unused_stack s).ids = s.ids := by
  unfold rm_unused_stack; split <;> rfl

lemma rm_messages (s : GState) : (rm_unused_stack s).messages = s.messages := by
  unfold rm_unused_stack; split <;> rfl

lemma resumeState_contexts (c : Ctx) (s : GState) :
    (resumeState c s).contexts = s.contexts := by
  cases hr : c.resume <;> simp [resumeState, hr, rm_contexts]

lemma resumeState_waiting (c : Ctx) (s : GState) :
    (resumeState c s).waiting = s.waiting := by
  cases hr : c.resume <;> simp [resumeState, hr, rm_waiting]

lemma resumeState_ids (c : Ctx) (s : GState) :
    (resumeState c s).ids = s.ids := by
  cases hr : c.resume <;> simp [resumeState, hr, rm_ids]

lemma schedule_waiting (s : GState) : (schedule s).waiting = s.waiting := by
  unfold schedule; split <;> rfl

lemma schedule_ids (s : GState) : (schedule s).ids = s.ids := by
  unfold schedule; split <;> rfl

lemma WF_schedule {s : GState} (h : WF s) : WF (schedule s) := by
  rcases hc : s.contexts with _ | ⟨c, _ | ⟨c2, tl⟩⟩
  · exact WF_of_perm h (by simp [allIds, schedule, hc]) (by simp [schedule, hc])
      (by simp [schedule, hc])
  · exact WF_of_perm h (by simp [allIds, schedule, hc]) (by simp [schedule, hc])
      (by simp [schedule, hc])
  · refine WF_of_perm h ?_ (by simp [schedule, hc]) (by simp [schedule, hc])
    have : (schedule s).contexts = (c2 :: tl) ++ [{ c with resume := Resume.normal }] := by
      simp [schedule, hc]
    rw [allIds, this, allIds, hc]
    have h1 := snoc_append_perm ((c2 :: tl).map Ctx.id) (s.waiting.map Prod.fst) c.id
    simpa [schedule_waiting] using h1

lemma WF_sendBody {s : GState} (key msg : Word) (h : WF s) :
    WF (sendBody key msg s) := by
  rcases hw : wremove s.waiting key with ⟨_ | w, w'⟩
  · exact WF_of_perm h (by simp [allIds, sendBody, hw]) (by simp [sendBody, hw])
      (by simp [sendBody, hw])
  · have hperm : s.waiting.Perm ((key, w) :: (wremove s.waiting key).2) :=
      wremove_perm s.waiting key w (by rw [hw])
    rw [hw] at hperm
    have hkey : key = w.id := by
      have hmem : (key, w) ∈ s.waiting := hperm.symm.subset (List.mem_cons_self _ _)
      exact h.2.2 (key, w) hmem
    subst hkey
    refine WF_of_perm h ?_ (by simp [sendBody, hw]) ?_
    · have hctx : (sendBody w.id msg s).contexts = s.contexts ++ [w] := by
        simp [sendBody, hw]
      have hwt : (sendBody w.id msg s).waiting = w' := by
        simp [sendBody, hw]
      have h2 : (s.waiting.map Prod.fst).Perm (w.id :: w'.map Prod.fst) := by
        simpa using hperm.map Prod.fst
      rw [allIds, hctx, hwt, allIds]
      simp only [List.map_append, List.map_cons, List.map_nil]
      refine (snoc_append_perm _ _ _).trans ?_
      exact List.perm_middle.symm.trans (List.Perm.append_left _ h2).symm
    · intro p hp
      have : p ∈ w' := by simpa [sendBody, hw] using hp
      exact hperm.symm.subset (List.mem_cons_of_mem _ this)

lemma WF_stepCmd {s : GState} (h : WF s) : WF (stepCmd s) := by
  rcases hc : s.contexts with _ | ⟨c, rest⟩
  · simpa [stepCmd, hc] using h
  · have hall : allIds s = c.id :: (rest.map Ctx.id ++ s.waiting.map Prod.fst) := by
      simp [allIds, hc]
    rcases hp : c.prog with _ | ⟨cmd, p⟩
    · -- the tail of entry_point: pop the front context, release its id
      obtain ⟨hn, hperm, hk⟩ := h
      refine ⟨?_, ?_, ?_⟩
      · have : allIds (stepCmd s) = rest.map Ctx.id ++ s.waiting.map Prod.fst := by
          simp [stepCmd, hc, hp, allIds]
        rw [this]
        exact (hall ▸ hn).of_cons
      · have hids : (stepCmd s).ids = s.ids.erase c.id := by simp [stepCmd, hc, hp]
        have h2 : (s.ids.erase c.id).Perm ((allIds s).erase c.id) := hperm.erase c.id
        rw [hall, List.erase_cons_head] at h2
        have h3 : allIds (stepCmd s) = rest.map Ctx.id ++ s.waiting.map Prod.fst := by
          simp [stepCmd, hc, hp, allIds]
        rw [hids, h3]
        exact h2
      · intro q hq
        exact hk q (by simpa [stepCmd, hc, hp] using hq)
    · cases cmd with
      | yield =>
          have hs : stepCmd s = schedule
              { s with contexts := { c with prog := p } :: rest
                       trace := s.trace ++ [Event.yielded c.id] } := by
            simp [stepCmd, hc, hp]
          rw [hs]
          refine WF_schedule (WF_of_perm h ?_ rfl ?_)
          · simp only [allIds, hc, List.map_cons]
            exact List.Perm.refl _
          · intro q hq
            exact hq
      | send key msg =>
          have hs : stepCmd s = send key msg
              { s with contexts := { c with prog := p } :: rest
                       trace := s.trace ++ [Event.sent c.id key msg] } := by
            simp [stepCmd, hc, hp]
          rw [hs]
          unfold send
          refine WF_schedule (WF_sendBody key msg (WF_of_perm h ?_ rfl ?_))
          · simp only [allIds, hc, List.map_cons]
            exact List.Perm.refl _
          · intro q hq
            exact hq
      | recv =>
          cases hm : mget s.messages c.id with
          | nil =>
              have hq := mpop_eq_nil _ _ hm
              rcases rest with _ | ⟨r, rs⟩
              · refine WF_of_perm h ?_ ?_ ?_ <;>
                  simp [stepCmd, hc, hp, recvFn, hq, allIds]
              · -- the caller blocks: move it into the waiting table
                have hnotw : c.id ∉ s.waiting.map Prod.fst := by
                  have hdisj := (List.nodup_append.mp (by simpa [allIds] using h.1)).2.2
                  exact fun hin => hdisj (by simp [hc]) hin
                have hwins := winsert_of_not_mem s.waiting c.id
                  { { c with prog := p } with resume := Resume.receiving } hnotw
                have hst : stepCmd s = { s with
                    messages := (mpop s.messages c.id).2
                    contexts := r :: rs
                    waiting := s.waiting ++
                      [(c.id, { { c with prog := p } with resume := Resume.receiving })] } := by
                  simp [stepCmd, hc, hp, recvFn, hq, hwins]
                obtain ⟨hn, hperm, hk⟩ := h
                have hallnew : allIds (stepCmd s) =
                    ((r :: rs).map Ctx.id ++ s.waiting.map Prod.fst) ++ [c.id] := by
                  rw [hst]
                  simp [allIds]
                have hpermnew : (allIds (stepCmd s)).Perm (allIds s) := by
                  rw [hallnew, hall]
                  exact List.perm_append_comm.trans (List.Perm.refl _)
                refine ⟨hpermnew.symm.nodup hn, ?_, ?_⟩
                · have : (stepCmd s).ids = s.ids := by rw [hst]
                  rw [this]
                  exact hperm.trans hpermnew.symm
                · intro q hq2
                  rw [hst] at hq2
                  simp only [List.mem_append, List.mem_singleton] at hq2
                  rcases hq2 with hq2 | hq2
                  · exact hk q hq2
                  · rw [hq2]
          | cons v tl =>
              obtain ⟨hp1, hp2, hp3⟩ := mpop_eq_cons _ _ _ _ hm
              rcases hq : mpop s.messages c.id with ⟨mo, msgs'⟩
              rw [hq] at hp1
              subst hp1
              refine WF_of_perm h ?_ ?_ ?_ <;>
                simp [stepCmd, hc, hp, recvFn, hq, allIds]
      | spawnc child =>
          rcases hg : getId s.rng s.ids with _ | ⟨id, ids', rng'⟩
          · refine WF_of_perm h ?_ ?_ ?_ <;> simp [stepCmd, hc, hp, hg, allIds]
          · obtain ⟨hid, hids'⟩ := getId_spec s.rng s.ids id ids' rng' hg
            have hs : stepCmd s = schedule
                { s with contexts := ({ c with prog := p } :: rest) ++
                           [⟨id, child, Resume.start⟩]
                         ids := ids', rng := rng'
                         trace := s.trace ++ [Event.spawned c.id id] } := by
              simp [stepCmd, hc, hp, hg]
            rw [hs]
            obtain ⟨hn, hperm, hk⟩ := h
            have hnotall : id ∉ allIds s := fun hin => hid (hperm.mem_iff.mpr hin)
            refine WF_schedule ⟨?_, ?_, ?_⟩
            · have hpermnew :
                  (((({ c with prog := p } : Ctx) :: rest) ++
                      [(⟨id, child, Resume.start⟩ : Ctx)]).map Ctx.id ++
                    s.waiting.map Prod.fst).Perm (id :: allIds s) := by
                simp only [List.map_append, List.map_cons, List.map_nil]
                refine (snoc_append_perm _ _ _).trans ?_
                rw [hall]
                exact List.Perm.refl _
              refine hpermnew.symm.nodup ?_
              exact List.nodup_cons.mpr ⟨hnotall, hn⟩
            · have hpermnew :
                  (((({ c with prog := p } : Ctx) :: rest) ++
                      [(⟨id, child, Resume.start⟩ : Ctx)]).map Ctx.id ++
                    s.waiting.map Prod.fst).Perm (id :: allIds s) := by
                simp only [List.map_append, List.map_cons, List.map_nil]
                refine (snoc_append_perm _ _ _).trans ?_
                rw [hall]
                exact List.Perm.refl _
              rw [hids']
              exact (hperm.cons id).trans hpermnew.symm
            · intro q hq2
              exact hk q hq2

lemma WF_step {s : GState} (h : WF s) : WF (step s) := by
  by_cases he : s.error.isSome
  · simpa [step, he] using h
  · rcases hc : s.contexts with _ | ⟨c, rest⟩
    · simpa [step, he, hc] using h
    · have hs : step s = stepCmd { resumeState c s with contexts := resumeCtx c :: rest } := by
        simp [step, he, hc]
      rw [hs]
      refine WF_stepCmd (WF_of_perm h ?_ ?_ ?_)
      · simp only [allIds, resumeState_waiting, resumeCtx, List.map_cons, hc]
        exact List.Perm.refl _
      · simp [resumeState_ids]
      · intro q hq
        simpa [resumeState_waiting] using hq

lemma WF_run (n : Nat) {s : GState} (h : WF s) : WF (run n s) := by
  induction n generalizing s with
  | zero => exact h
  | succ n ih => exact ih (WF_step h)

/-! ### Round-robin rotation and fairness (claim C6) -/

lemma run_add (m n : Nat) (s : GState) : run (m + n) s = run n (run m s) := by
  induction m generalizing s with
  | zero =>
      rw [Nat.zero_add]
      rfl
  | succ m ih =>
      rw [Nat.succ_add]
      exact ih (step s)

lemma resumeState_no_recv (c : Ctx) (s : GState) (hr : c.resume ≠ Resume.receiving)
    (hu : s.unusedStack = none) : resumeState c s = s := by
  cases hc : c.resume with
  | receiving => exact absurd hc hr
  | normal => simp [resumeState, hc, rm_unused_stack, hu]
  | start => simp [resumeState, hc]
  | running => simp [resumeState, hc]

/-- A task that executes `yield` with at least one other runnable task:
the queue rotates and the task is suspended at `schedule`'s save site. -/
lemma step_yield (s : GState) (a : Ctx) (cs : List Ctx) (p : List Com)
    (he : s.error = none) (hu : s.unusedStack = none)
    (hc : s.contexts = a :: cs) (hcs : cs ≠ [])
    (hp : a.prog = Com.yield :: p) (hr : a.resume ≠ Resume.receiving) :
    step s = { s with contexts := cs ++ [⟨a.id, p, Resume.normal⟩]
                      trace := s.trace ++ [Event.yielded a.id] } := by
  have h1 : resumeState a s = s := resumeState_no_recv a s hr hu
  rcases cs with _ | ⟨d, tl⟩
  · exact absurd rfl hcs
  · simp [step, he, hc, h1, stepCmd, resumeCtx, hp, schedule]

/-- A task that executes `yield` as the sole runnable task: `schedule`
returns immediately and only the program counter advances. -/
lemma step_yield_one (s : GState) (a : Ctx) (p : List Com)
    (he : s.error = none) (hu : s.unusedStack = none)
    (hc : s.contexts = [a]) (hp : a.prog = Com.yield :: p)
    (hr : a.resume ≠ Resume.receiving) :
    step s = { s with contexts := [⟨a.id, p, Resume.running⟩]
                      trace := s.trace ++ [Event.yielded a.id] } := by
  have h1 : resumeState a s = s := resumeState_no_recv a s hr hu
  simp [step, he, hc, h1, stepCmd, resumeCtx, hp, schedule]

/-- The context after one consumed `yield`. -/
def adv (c : Ctx) : Ctx := ⟨c.id, c.prog.tail, Resume.normal⟩

lemma run_yield_partial : ∀ (as bs : List Ctx) (s : GState),
    s.error = none → s.unusedStack = none → 2 ≤ as.length + bs.length →
    s.contexts = as ++ bs →
    (∀ c ∈ as, (∃ p, c.prog = Com.yield :: p) ∧ c.resume ≠ Resume.receiving) →
    run as.length s = { s with contexts := bs ++ as.map adv
                               trace := s.trace ++
                                 as.map (fun c => Event.yielded c.id) } := by
  intro as
  induction as with
  | nil =>
      intro bs s he hu hlen hc hy
      simp only [List.length_nil, run, List.nil_append] at hc ⊢
      rw [← hc]
      simp
  | cons a as' ih =>
      intro bs s he hu hlen hc hy
      obtain ⟨⟨p, hp⟩, hr⟩ := hy a (List.mem_cons_self _ _)
      have hcs : as' ++ bs ≠ [] := by
        intro hnil
        have h0 := congrArg List.length hnil
        simp only [List.length_append, List.length_nil] at h0
        have h1 : (a :: as').length = as'.length + 1 := List.length_cons a as'
        omega
      have hstep := step_yield s a (as' ++ bs) p he hu (by rw [hc, List.cons_append])
        hcs hp hr
      have hadv : (⟨a.id, p, Resume.normal⟩ : Ctx) = adv a := by
        simp [adv, hp]
      have hnext := ih (bs ++ [adv a]) (step s)
        (by rw [hstep]; exact he) (by rw [hstep]; exact hu)
        (by
          have h1 : (a :: as').length = as'.length + 1 := List.length_cons a as'
          have h2 : (bs ++ [adv a]).length = bs.length + 1 := by simp
          omega)
        (by rw [hstep]; simp [hadv, List.append_assoc])
        (fun c hcmem => hy c (List.mem_cons_of_mem _ hcmem))
      show run (as'.length + 1) s = _
      rw [Nat.add_comm, run_add]
      have hrun1 : run 1 s = step s := rfl
      rw [hrun1, hnext, hstep]
      simp [List.append_assoc]

lemma run_yield_rounds : ∀ (y : Nat) (s : GState),
    s.error = none → s.unusedStack = none → 2 ≤ s.contexts.length →
    (∀ c ∈ s.contexts, c.prog = List.replicate y Com.yield ∧
        c.resume ≠ Resume.receiving) →
    (run (y * s.contexts.length) s).trace =
      s.trace ++
        (List.replicate y (s.contexts.map (fun c => Event.yielded c.id))).flatten := by
  intro y
  induction y with
  | zero => intro s _ _ _ _; simp [run]
  | succ y ih =>
      intro s he hu hlen hy
      have hround := run_yield_partial s.contexts [] s he hu (by simpa using hlen)
        (by simp)
        (fun c hcmem => ⟨⟨List.replicate y Com.yield, by
            rw [(hy c hcmem).1, List.replicate_succ]⟩, (hy c hcmem).2⟩)
      have hmul : (y + 1) * s.contexts.length =
          s.contexts.length + y * s.contexts.length := by ring
      rw [hmul, run_add, hround]
      set s' : GState := { s with contexts := [] ++ s.contexts.map adv
                                  trace := s.trace ++
                                    s.contexts.map (fun c => Event.yielded c.id) }
        with hs'
      have hlen2 : s'.contexts.length = s.contexts.length := by
        simp [hs']
      have hnext := ih s' (by simp [hs', he]) (by simp [hs', hu])
        (by rw [hlen2]; exact hlen)
        (by
          intro c hcmem
          have : c ∈ s.contexts.map adv := by simpa [hs'] using hcmem
          simp only [List.mem_map] at this
          obtain ⟨c0, hc0, hc0eq⟩ := this
          subst hc0eq
          exact ⟨by simp [adv, (hy c0 hc0).1, List.replicate_succ], by simp [adv]⟩)
      rw [hlen2] at hnext
      rw [hnext]
      have hmapadv : s'.contexts.map (fun c => Event.yielded c.id) =
          s.contexts.map (fun c => Event.yielded c.id) := by
        simp only [hs', List.nil_append, List.map_map]
        rfl
      have htr : s'.trace = s.trace ++ s.contexts.map (fun c => Event.yielded c.id) := by
        simp [hs']
      rw [hmapadv, htr, List.replicate_succ, List.flatten_cons, List.append_assoc]

lemma run_yield_one : ∀ (y : Nat) (s : GState) (a : Ctx),
    s.error = none → s.unusedStack = none → s.contexts = [a] →
    a.prog = List.replicate y Com.yield → a.resume ≠ Resume.receiving →
    (run y s).trace = s.trace ++ (List.replicate y [Event.yielded a.id]).flatten := by
  intro y
  induction y with
  | zero => intro s a _ _ _ _ _; simp [run]
  | succ y ih =>
      intro s a he hu hc hp hr
      have hstep := step_yield_one s a (List.replicate y Com.yield) he hu hc
        (by rw [hp, List.replicate_succ]) hr
      have hnext := ih (step s) ⟨a.id, List.replicate y Com.yield, Resume.running⟩
        (by rw [hstep]; exact he) (by rw [hstep]; exact hu) (by rw [hstep]) rfl
        (by simp)
      show (run y (step s)).trace = _
      rw [hnext, hstep]
      simp [List.replicate_succ, List.append_assoc]

lemma flatten_replicate_nil {α : Type} (y : Nat) :
    (List.replicate y ([] : List α)).flatten = [] := by
  induction y with
  | zero => rfl
  | succ y ih => simp [List.replicate_succ, ih]

lemma count_take_flatten_le {α : Type} [DecidableEq α] (l : List α) (hl : l.Nodup)
    (a : α) (y m : Nat) :
    (((List.replicate y l).flatten.take m).count a) ≤ m / l.length + 1 := by
  induction y generalizing m with
  | zero => simp
  | succ y ih =>
      rcases Nat.eq_zero_or_pos l.length with hN | hN
      · rw [List.length_eq_zero.mp hN]
        simp [flatten_replicate_nil]
      · rw [List.replicate_succ, List.flatten_cons, List.take_append_eq_append_take,
          List.count_append]
        have hcl : (l.take m).count a ≤ 1 :=
          le_trans ((List.take_sublist m l).count_le a)
            (List.nodup_iff_count_le_one.mp hl a)
        rcases le_or_lt m l.length with hm | hm
        · have h0 : m - l.length = 0 := Nat.sub_eq_zero_of_le hm
          rw [h0]
          simpa using le_trans hcl (Nat.le_add_left 1 _)
        · have hdiv : m / l.length = (m - l.length) / l.length + 1 := by
            rw [← Nat.add_div_right _ hN, Nat.sub_add_cancel (le_of_lt hm)]
          have := ih (m - l.length)
          omega

lemma le_count_take_flatten {α : Type} [DecidableEq α] (l : List α) (a : α)
    (ha : a ∈ l) (y m : Nat) (hm : m ≤ y * l.length) :
    m / l.length ≤ ((List.replicate y l).flatten.take m).count a := by
  induction y generalizing m with
  | zero =>
      simp at hm
      subst hm
      simp
  | succ y ih =>
      have hN : 0 < l.length := List.length_pos.mpr (List.ne_nil_of_mem ha)
      rw [List.replicate_succ, List.flatten_cons, List.take_append_eq_append_take,
        List.count_append]
      rcases lt_or_le m l.length with hm2 | hm2
      · have h0 : m / l.length = 0 := Nat.div_eq_of_lt hm2
        omega
      · have htake : l.take m = l := List.take_of_length_le hm2
        have hcl : 1 ≤ (l.take m).count a := by
          rw [htake]
          exact List.count_pos_iff.mpr ha
        have hdiv : m / l.length = (m - l.length) / l.length + 1 := by
          rw [← Nat.add_div_right _ hN, Nat.sub_add_cancel hm2]
        have hrest : m - l.length ≤ y * l.length := by
          have : (y + 1) * l.length = y * l.length + l.length := by ring
          omega
        have := ih (m - l.length) hrest
        omega

lemma fair_of_flatten_replicate {α : Type} [DecidableEq α] (l : List α)
    (hl : l.Nodup) (t u : α) (ht : t ∈ l) (y i m : Nat) (hm : m ≤ y * l.length)
    (h : i + 1 ≤ ((List.replicate y l).flatten.take m).count u) :
    i ≤ ((List.replicate y l).flatten.take m).count t := by
  have h1 := count_take_flatten_le l hl u y m
  have h2 := le_count_take_flatten l t ht y m hm
  omega

lemma rm_unusedStack_none (s : GState) : (rm_unused_stack s).unusedStack = none := by
  cases hu : s.unusedStack with
  | none => simp [rm_unused_stack, hu]
  | some stk => simp [rm_unused_stack, hu]

/-! ### Example states used by the witnesses -/

/-- Producer (id 1) sending twice to a consumer (id 2) that receives twice. -/
def sC1 : GState :=
  ⟨[⟨1, [Com.send 2 10, Com.send 2 11], Resume.start⟩,
    ⟨2, [Com.recv, Com.recv], Resume.start⟩], [], [], [1, 2], some (), none, [], [], none⟩

/-- A sole runnable task (id 5) with an empty mailbox. -/
def sC2 : GState := ⟨[⟨5, [Com.recv], Resume.start⟩], [], [], [5], some (), none, [], [], none⟩

/-- A sole runnable task (id 5) whose mailbox already holds message 7. -/
def sC2b : GState := ⟨[⟨5, [], Resume.start⟩], [], [(5, [7])], [5], some (), none, [], [], none⟩

/-- A single runnable task, for the one-entry `schedule` case. -/
def sC4 : GState := ⟨[⟨3, [], Resume.start⟩], [], [], [3], some (), none, [], [], none⟩

/-- Task 1 runnable, task 2 blocked in the waiting table. -/
def sC5 : GState :=
  ⟨[⟨1, [], Resume.start⟩], [(2, ⟨2, [], Resume.receiving⟩)], [], [1, 2],
    some (), none, [], [], none⟩

/-- Two runnable tasks that only yield, twice each. -/
def sC6 : GState :=
  ⟨[⟨1, List.replicate 2 Com.yield, Resume.start⟩,
    ⟨2, List.replicate 2 Com.yield, Resume.start⟩], [], [], [1, 2],
    some (), none, [], [], none⟩

/-- A state whose main-context slot is already populated. -/
def bootedState : GState := { initState with ctxMain := some () }

/-- The state `spawn_from_main [] [1] 2 initState` tears down to. -/
def sC9 : GState := ⟨[], [], [], [], none, none, [], [Event.exited 1, Event.freed 1], none⟩

/-- First task spawns a child (id 2) that yields once, then a child (id 3)
with an empty body.  Task 2 exits into the freshly spawned task 3, which
exits immediately: no drain runs between the two exits. -/
def leakProg : List Com := [Com.spawnc [Com.yield], Com.spawnc []]

/-- Calling the bootstrap a second time after the first one returned. -/
def bootTwice : Except String GState :=
  match spawn_from_main [] [1] 3 initState with
  | Except.ok s1 => spawn_from_main [] [1] 3 s1
  | Except.error e => Except.error e

/-! ### Claim theorems -/

/-- C1: FIFO delivery.  In any run, the sequence of messages the task with
identifier `k` has received, followed by the messages still queued in `k`'s
mailbox, equals the sequence of messages sent to `k`, in order — so receives
return messages in send order and each send is delivered at most once; and
`MappedList::push_back` appends at the back of the per-identifier FIFO, so
insertion order is preserved. -/
theorem c1_fifo_delivery (s : GState) (k : Word) (h0 : s.trace = [])
    (h1 : mget s.messages k = []) (n : Nat) :
    sentTo k (run n s).trace =
      recvdBy k (run n s).trace ++ mget (run n s).messages k ∧
    (∀ m v, mget (mpush m k v) k = mget m k ++ [v]) := by
  constructor
  · have hinv : MailInv k s := by
      unfold MailInv
      rw [h0, h1]
      simp
    exact MailInv_run n hinv
  · intro m v
    exact mget_mpush_self m k v

/-- Witness for C1 on a concrete producer/consumer run. -/
theorem c1_witness :
    sentTo 2 (run 6 sC1).trace =
      recvdBy 2 (run 6 sC1).trace ++ mget (run 6 sC1).messages 2 ∧
    (∀ m v, mget (mpush m 2 v) 2 = mget m 2 ++ [v]) :=
  c1_fifo_delivery sC1 2 rfl rfl 6

/-- C2: `recv` panics with "dead lock" exactly when the caller is the sole
entry of the runnable queue and its mailbox is empty; with a non-empty
mailbox it pops and returns the head message even as the sole runnable
task; and the interpreter turns the panic into the fatal diagnostic
`"dead lock!"`. -/
theorem c2_recv_deadlock (s : GState) :
    (recvFn s = RecvOut.deadlock ↔
      ∃ c, s.contexts = [c] ∧ mget s.messages c.id = []) ∧
    (∀ c rest v tl, s.contexts = c :: rest → mget s.messages c.id = v :: tl →
      recvFn s = RecvOut.ret (some v) { s with messages := (mpop s.messages c.id).2 }) ∧
    (∀ c p rest, s.contexts = c :: rest → c.prog = Com.recv :: p →
      recvFn { s with contexts := { c with prog := p } :: rest } = RecvOut.deadlock →
      (stepCmd s).error = some "dead lock!") := by
  refine ⟨?_, ?_, ?_⟩
  · constructor
    · intro hd
      rcases hc : s.contexts with _ | ⟨c, rest⟩
      · simp [recvFn, hc] at hd
      · cases hm : mget s.messages c.id with
        | nil =>
            have hq := mpop_eq_nil _ _ hm
            rcases rest with _ | ⟨r, rs⟩
            · exact ⟨c, rfl, hm⟩
            · simp [recvFn, hc, hq] at hd
        | cons v tl =>
            rcases hq : mpop s.messages c.id with ⟨mo, msgs'⟩
            have hp1 := (mpop_eq_cons _ _ _ _ hm).1
            rw [hq] at hp1
            subst hp1
            simp [recvFn, hc, hq] at hd
    · rintro ⟨c, hc, hm⟩
      have hq := mpop_eq_nil _ _ hm
      simp [recvFn, hc, hq]
  · intro c rest v tl hc hm
    obtain ⟨hp1, _, _⟩ := mpop_eq_cons _ _ _ _ hm
    rcases hq : mpop s.messages c.id with ⟨mo, msgs'⟩
    rw [hq] at hp1
    subst hp1
    simp [recvFn, hc, hq]
  · intro c p rest hc hp hdead
    simp [stepCmd, hc, hp, hdead]

/-- Witness for C2: a sole receiver with an empty mailbox deadlocks; a sole
receiver with a queued message gets it. -/
theorem c2_witness :
    recvFn sC2 = RecvOut.deadlock ∧
    recvFn sC2b = RecvOut.ret (some 7) { sC2b with messages := (mpop sC2b.messages 5).2 } :=
  ⟨(c2_recv_deadlock sC2).1.mpr ⟨⟨5, [Com.recv], Resume.start⟩, rfl, rfl⟩,
   (c2_recv_deadlock sC2b).2.1 ⟨5, [], Resume.start⟩ [] 7 [] rfl rfl⟩

/-- C3: the claim fails on the code (the stack of an exited task can be
leaked).  Running the bootstrap on `leakProg`: task 2 exits (its stack goes
into the slot), control switches into the freshly spawned task 3, which
performs no drain (`entry_point` does not call `rm_unused_stack`) and exits
immediately, overwriting the slot.  The run completes, task 2's exit is in
the trace, but no deallocation of task 2's stack ever happens, while task
3's stack is freed. -/
theorem c3_unused_stack_leak :
    isOkE (spawn_from_main leakProg [1, 2, 3] 10 initState) = true ∧
    Event.exited 2 ∈ traceOf (spawn_from_main leakProg [1, 2, 3] 10 initState) ∧
    Event.freed 2 ∉ traceOf (spawn_from_main leakProg [1, 2, 3] 10 initState) ∧
    Event.freed 3 ∈ traceOf (spawn_from_main leakProg [1, 2, 3] 10 initState) := by
  decide

/-- C4 as stated is false: with zero entries the yield operation does not
return with the state unmodified — the source's
`CONTEXTS.pop_front().unwrap()` panics on `None`. -/
theorem c4_counterexample :
    initState.contexts.length < 2 ∧ schedule initState ≠ initState := by
  constructor
  · decide
  · intro h
    have h2 := congrArg GState.error h
    simp [schedule, initState] at h2

/-- C4 amended: with exactly one entry, yield returns immediately with the
whole state (queue, waiting table, mailbox) unmodified; with zero entries it
panics. -/
theorem c4_yield_few (s : GState) :
    (∀ c, s.contexts = [c] → schedule s = s) ∧
    (s.contexts = [] → (schedule s).error = some "unwrap on None") := by
  constructor
  · intro c hc
    simp [schedule, hc]
  · intro hc
    simp [schedule, hc]

/-- Witness for C4 amended. -/
theorem c4_witness :
    schedule sC4 = sC4 ∧ (schedule initState).error = some "unwrap on None" :=
  ⟨(c4_yield_few sC4).1 ⟨3, [], Resume.start⟩ rfl, (c4_yield_few initState).2 rfl⟩

/-- C5: `send key msg` appends `msg` at the back of the mailbox FIFO for
`key` and touches no other mailbox; if a context waits on `key` it is
removed from the waiting table and appended to the back of the runnable
queue; with no waiting entry (an unknown identifier included) the queues
are untouched; and all of this happens before the trailing yield
(`send = schedule ∘ sendBody`). -/
theorem c5_send_spec (s : GState) (key msg : Word) :
    mget (sendBody key msg s).messages key = mget s.messages key ++ [msg] ∧
    (∀ k', k' ≠ key → mget (sendBody key msg s).messages k' = mget s.messages k') ∧
    (∀ w, wlookup s.waiting key = some w →
      (sendBody key msg s).contexts = s.contexts ++ [w] ∧
      (sendBody key msg s).waiting = (wremove s.waiting key).2) ∧
    (wlookup s.waiting key = none →
      (sendBody key msg s).contexts = s.contexts ∧
      (sendBody key msg s).waiting = s.waiting) ∧
    send key msg s = schedule (sendBody key msg s) := by
  refine ⟨?_, ?_, ?_, ?_, rfl⟩
  · rw [sendBody_messages, mget_mpush_self]
  · intro k' hk'
    rw [sendBody_messages, mget_mpush_ne _ _ _ _ hk']
  · intro w hw
    have hfst := wremove_fst s.waiting key
    rcases hq : wremove s.waiting key with ⟨r, w'⟩
    rw [hq] at hfst
    rw [hw] at hfst
    subst hfst
    constructor
    · simp [sendBody, hq]
    · simp [sendBody, hq]
  · intro hw
    have hfst := wremove_fst s.waiting key
    rcases hq : wremove s.waiting key with ⟨r, w'⟩
    rw [hq] at hfst
    rw [hw] at hfst
    subst hfst
    constructor
    · simp [sendBody, hq]
    · simp [sendBody, hq]

/-- Witness for C5: a send to a waiting task and a send to an unknown id. -/
theorem c5_witness :
    mget (sendBody 2 9 sC5).messages 2 = mget sC5.messages 2 ++ [9] ∧
    (sendBody 2 9 sC5).contexts = sC5.contexts ++ [⟨2, [], Resume.receiving⟩] ∧
    (sendBody 7 9 sC5).contexts = sC5.contexts ∧
    (sendBody 7 9 sC5).waiting = sC5.waiting :=
  ⟨(c5_send_spec sC5 2 9).1,
   ((c5_send_spec sC5 2 9).2.2.1 ⟨2, [], Resume.receiving⟩ rfl).1,
   ((c5_send_spec sC5 7 9).2.2.2.1 rfl).1,
   ((c5_send_spec sC5 7 9).2.2.2.1 rfl).2⟩

/-- C6: round-robin.  Yielding moves the front context to the back while
keeping the relative order of all other contexts.  When every runnable task
only yields (`y` times each), the trace of execution steps is exactly the
queue order repeated round after round; consequently (with distinct
identifiers) whenever some task has taken `i + 1` steps within a prefix of
the run, every task has taken at least `i` — each task's `i`-th step
precedes any task's `(i+1)`-th step. -/
theorem c6_round_robin :
    (∀ (s : GState) (c c2 : Ctx) (tl : List Ctx), s.contexts = c :: c2 :: tl →
      (schedule s).contexts = (c2 :: tl) ++ [{ c with resume := Resume.normal }]) ∧
    (∀ (s : GState) (y : Nat), s.error = none → s.unusedStack = none →
      s.contexts ≠ [] →
      (∀ c ∈ s.contexts, c.prog = List.replicate y Com.yield ∧
          c.resume ≠ Resume.receiving) →
      (run (y * s.contexts.length) s).trace = s.trace ++
        (List.replicate y (s.contexts.map (fun c => Event.yielded c.id))).flatten ∧
      (s.trace = [] → (s.contexts.map Ctx.id).Nodup →
        ∀ t u, t ∈ s.contexts.map Ctx.id → u ∈ s.contexts.map Ctx.id →
        ∀ i m, m ≤ y * s.contexts.length →
        i + 1 ≤ ((run (y * s.contexts.length) s).trace.take m).count (Event.yielded u) →
        i ≤ ((run (y * s.contexts.length) s).trace.take m).count (Event.yielded t))) := by
  constructor
  · intro s c c2 tl hc
    simp [schedule, hc]
  · intro s y he hu hne hy
    have htr : (run (y * s.contexts.length) s).trace = s.trace ++
        (List.replicate y (s.contexts.map (fun c => Event.yielded c.id))).flatten := by
      rcases hc : s.contexts with _ | ⟨a, _ | ⟨b, tl⟩⟩
      · exact absurd hc hne
      · have hmem : a ∈ s.contexts := by
          rw [hc]
          exact List.mem_cons_self _ _
        have h1 := run_yield_one y s a he hu hc (hy a hmem).1 (hy a hmem).2
        simpa using h1
      · have hlen : 2 ≤ s.contexts.length := by
          rw [hc]
          simp
        have h2 := run_yield_rounds y s he hu hlen hy
        rw [hc] at h2
        exact h2
    refine ⟨htr, ?_⟩
    intro h0 hnodup t u ht hu' i m hm hcount
    have hTr2 : (run (y * s.contexts.length) s).trace =
        (List.replicate y (s.contexts.map (fun c => Event.yielded c.id))).flatten := by
      rw [htr, h0, List.nil_append]
    rw [hTr2] at hcount ⊢
    have hnodup_l : (s.contexts.map (fun c => Event.yielded c.id)).Nodup := by
      have hcomp : s.contexts.map (fun c => Event.yielded c.id) =
          (s.contexts.map Ctx.id).map Event.yielded := by
        rw [List.map_map]
        rfl
      rw [hcomp]
      exact hnodup.map (fun a b hab => by injection hab)
    have ht_l : Event.yielded t ∈ s.contexts.map (fun c => Event.yielded c.id) := by
      obtain ⟨c0, hc0, hc0id⟩ := List.mem_map.mp ht
      exact List.mem_map.mpr ⟨c0, hc0, by rw [hc0id]⟩
    have hm_l : m ≤ y * (s.contexts.map (fun c => Event.yielded c.id)).length := by
      rw [List.length_map]
      exact hm
    exact fair_of_flatten_replicate _ hnodup_l (Event.yielded t) (Event.yielded u)
      ht_l y i m hm_l hcount

/-- Witness for C6: two tasks yielding twice each alternate perfectly. -/
theorem c6_witness :
    (schedule sC6).contexts = [⟨2, List.replicate 2 Com.yield, Resume.start⟩,
      ⟨1, List.replicate 2 Com.yield, Resume.normal⟩] ∧
    (run 4 sC6).trace =
      [Event.yielded 1, Event.yielded 2, Event.yielded 1, Event.yielded 2] ∧
    1 ≤ ((run 4 sC6).trace.take 4).count (Event.yielded 1) :=
  ⟨c6_round_robin.1 sC6 ⟨1, List.replicate 2 Com.yield, Resume.start⟩
      ⟨2, List.replicate 2 Com.yield, Resume.start⟩ [] rfl,
   (c6_round_robin.2 sC6 2 rfl rfl (by simp [sC6])
      (by
        intro c hc
        simp [sC6] at hc
        rcases hc with h | h <;> subst h <;> exact ⟨rfl, by simp⟩)).1,
   (c6_round_robin.2 sC6 2 rfl rfl (by simp [sC6])
      (by
        intro c hc
        simp [sC6] at hc
        rcases hc with h | h <;> subst h <;> exact ⟨rfl, by simp⟩)).2
     rfl (by decide) 1 2 (by decide) (by decide) 1 4 (by decide) (by decide)⟩

/-- C7: accounting invariant.  In every well-formed state and after any
number of scheduler operations (spawn, yield, send, recv, trampoline exit —
each interpreter step is one of them), the live id set is exactly as large
as the runnable queue plus the waiting table, and every waiting identifier
is live and absent from the runnable queue. -/
theorem c7_accounting (s : GState) (h : WF s) (n : Nat) :
    SchedInv s ∧ SchedInv (run n s) ∧ WF (run n s) :=
  ⟨SchedInv_of_WF h, SchedInv_of_WF (WF_run n h), WF_run n h⟩

/-- Witness for C7 on a state with one runnable and one waiting task. -/
theorem c7_witness : SchedInv sC5 ∧ SchedInv (run 3 sC5) ∧ WF (run 3 sC5) :=
  c7_accounting sC5
    ⟨by decide, List.Perm.refl _, by
      intro p hp
      simp [sC5] at hp
      subst hp
      rfl⟩ 3

/-- C8 as stated is false: the teardown at the end of `spawn_from_main`
clears the main-context slot, so a second bootstrap in the same process,
issued after the first returned, succeeds instead of being fatal. -/
theorem c8_counterexample :
    isOkE (spawn_from_main [] [1] 3 initState) = true ∧ isOkE bootTwice = true := by
  decide

/-- C8 amended: a bootstrap call is fatal exactly while the main-context
slot is populated (a call before the current bootstrap finished); once
bootstrap returns the slot is cleared and a later call is not fatal. -/
theorem c8_double_bootstrap (s : GState) (prog : List Com) (rng : List Word)
    (fuel : Nat) (h : s.ctxMain = some ()) :
    spawn_from_main prog rng fuel s = Except.error "spawn_from_main is called twice" := by
  simp [spawn_from_main, h]

/-- Witness for C8 amended. -/
theorem c8_witness :
    spawn_from_main [] [] 0 bootedState = Except.error "spawn_from_main is called twice" :=
  c8_double_bootstrap bootedState [] [] 0 rfl

/-- C9: whenever `spawn_from_main` returns to the host, every global table
(runnable queue, waiting table, mailbox, live id set) is empty, the
main-context slot is clear, and the unused-stack slot has been drained. -/
theorem c9_teardown (prog : List Com) (rng : List Word) (fuel : Nat) (s s' : GState)
    (h : spawn_from_main prog rng fuel s = Except.ok s') :
    s'.contexts = [] ∧ s'.waiting = [] ∧ s'.messages = [] ∧ s'.ids = [] ∧
    s'.ctxMain = none ∧ s'.unusedStack = none := by
  unfold spawn_from_main at h
  split at h
  · exact Except.noConfusion h
  · split at h
    · exact Except.noConfusion h
    · unfold bootFinish at h
      split at h
      · exact Except.noConfusion h
      · split at h
        · injection h with h'
          rw [← h']
          exact ⟨rfl, rfl, rfl, rfl, rfl, by simp [teardown, rm_unusedStack_none]⟩
        · exact Except.noConfusion h

/-- Witness for C9 on a completed single-task bootstrap. -/
theorem c9_witness :
    spawn_from_main [] [1] 2 initState = Except.ok sC9 ∧
    (sC9.contexts = [] ∧ sC9.waiting = [] ∧ sC9.messages = [] ∧ sC9.ids = [] ∧
      sC9.ctxMain = none ∧ sC9.unusedStack = none) :=
  ⟨rfl, c9_teardown [] [1] 2 initState sC9 rfl⟩

/-- C10: a `recv` issued with an empty runnable queue (from the host,
outside any task) returns `none` through the `?` on `CONTEXTS.front()`,
without panicking and with the state — queue, waiting table, every
mailbox — completely unchanged. -/
theorem c10_recv_empty_queue (s : GState) (h : s.contexts = []) :
    recvFn s = RecvOut.ret none s := by
  simp [recvFn, h]

/-- Witness for C10. -/
theorem c10_witness : recvFn initState = RecvOut.ret none initState :=
  c10_recv_empty_queue initState rfl

end Green
